import Mathlib

/-!
Shallow embedding of the chord-detection pipeline of `ChordDetector.py`
(class `ChordDetector`: `detect_chords_from_chroma`, `smooth_chord_progression`,
`get_chord_progression`).  Numeric code is idealized over exact rationals.

A Pearson correlation score `np.corrcoef(x, y)[0, 1]` equals
`A / Real.sqrt (Vx * Vy)` where, with `n` the common length,
`A = n * Σ x i * y i - (Σ x i) * (Σ y i)`, `Vx = n * Σ (x i)^2 - (Σ x i)^2`
and `Vy` likewise (the usual centered formula scaled by `n^2`, which leaves
the correlation unchanged).  The score is NaN exactly when `Vx = 0` or
`Vy = 0` (a constant vector makes the quotient `0 / 0`).  To keep every
definition computable we represent a score by the rational pair
`(A, Vx * Vy)`, standing for the real number `A / Real.sqrt (Vx * Vy)`, and
decide the float comparisons of the source exactly on such pairs
(`scoreGt`); the lemma `scoreGt_iff_real` proves that this decision
procedure agrees with the real-number comparison.  The initial running best
`-1` is the pair `(-1, 1)` and the threshold `0.5` is the pair `(1, 4)`.
-/

namespace ChordDetector

/-- The 24 chord templates of `ChordDetector.__init__`, in the declaration
order of the Python dict (insertion order, which Python preserves when
iterating `self.chord_templates.items()`). -/
def chordTemplates : List (String × List ℚ) :=
  [("C",   [1, 0, 0, 0, 1, 0, 0, 1, 0, 0, 0, 0]),
   ("C#",  [0, 1, 0, 0, 0, 1, 0, 0, 1, 0, 0, 0]),
   ("D",   [0, 0, 1, 0, 0, 0, 1, 0, 0, 1, 0, 0]),
   ("D#",  [0, 0, 0, 1, 0, 0, 0, 1, 0, 0, 1, 0]),
   ("E",   [0, 0, 0, 0, 1, 0, 0, 0, 1, 0, 0, 1]),
   ("F",   [1, 0, 0, 0, 0, 1, 0, 0, 0, 1, 0, 0]),
   ("F#",  [0, 1, 0, 0, 0, 0, 1, 0, 0, 0, 1, 0]),
   ("G",   [0, 0, 1, 0, 0, 0, 0, 1, 0, 0, 0, 1]),
   ("G#",  [1, 0, 0, 1, 0, 0, 0, 0, 1, 0, 0, 0]),
   ("A",   [0, 1, 0, 0, 1, 0, 0, 0, 0, 1, 0, 0]),
   ("A#",  [0, 0, 1, 0, 0, 1, 0, 0, 0, 0, 1, 0]),
   ("B",   [0, 0, 0, 1, 0, 0, 1, 0, 0, 0, 0, 1]),
   ("Cm",  [1, 0, 0, 1, 0, 0, 0, 1, 0, 0, 0, 0]),
   ("C#m", [0, 1, 0, 0, 1, 0, 0, 0, 1, 0, 0, 0]),
   ("Dm",  [0, 0, 1, 0, 0, 1, 0, 0, 0, 1, 0, 0]),
   ("D#m", [0, 0, 0, 1, 0, 0, 1, 0, 0, 0, 1, 0]),
   ("Em",  [0, 0, 0, 0, 1, 0, 0, 1, 0, 0, 0, 1]),
   ("Fm",  [1, 0, 0, 0, 0, 1, 0, 0, 1, 0, 0, 0]),
   ("F#m", [0, 1, 0, 0, 0, 0, 1, 0, 0, 1, 0, 0]),
   ("Gm",  [0, 0, 1, 0, 0, 0, 0, 1, 0, 0, 1, 0]),
   ("G#m", [0, 0, 0, 1, 0, 0, 0, 0, 1, 0, 0, 1]),
   ("Am",  [1, 0, 0, 0, 1, 0, 0, 0, 0, 1, 0, 0]),
   ("A#m", [0, 1, 0, 0, 0, 1, 0, 0, 0, 0, 1, 0]),
   ("Bm",  [0, 0, 1, 0, 0, 0, 1, 0, 0, 0, 0, 1])]

/-- Normalization step of `detect_chords_from_chroma`:
`if np.sum(frame_chroma) > 0: frame_chroma = frame_chroma / np.sum(frame_chroma)`. -/
def normalize (frame : List ℚ) : List ℚ :=
  if 0 < frame.sum then frame.map (fun x => x / frame.sum) else frame

/-- Scaled covariance `n * Σ x i * y i - (Σ x i) * (Σ y i)` (numerator of the
correlation, scaled by the positive constant `n^2`). -/
def sxy (x y : List ℚ) : ℚ :=
  (x.length : ℚ) * (List.zipWith (fun a b => a * b) x y).sum - x.sum * y.sum

/-- Scaled variance of one sample; `sxx x = 0` exactly when `x` is constant,
which is the case in which `np.corrcoef` yields NaN. -/
def sxx (x : List ℚ) : ℚ :=
  (x.length : ℚ) * (List.zipWith (fun a b => a * b) x x).sum - x.sum * x.sum

/-- The correlation of `x` and `y` is a (non-NaN) number exactly when neither
sample is constant. -/
def scoreDefined (x y : List ℚ) : Bool :=
  decide (sxx x ≠ 0) && decide (sxx y ≠ 0)

/-- The pair `(A, V)` representing the correlation score `A / Real.sqrt V` of
a frame `x` against a template `y`. -/
def sc (x y : List ℚ) : ℚ × ℚ :=
  (sxy x y, sxx x * sxx y)

/-- Exact decision of `a₁ / Real.sqrt v₁ > a₂ / Real.sqrt v₂` (for
`0 < v₁`, `0 < v₂`) by rational sign analysis and squaring; this is the
`score > best_score` comparison of the source. -/
def scoreGt (a₁ v₁ a₂ v₂ : ℚ) : Bool :=
  if 0 < a₁ then
    if 0 < a₂ then decide (a₂ ^ 2 * v₁ < a₁ ^ 2 * v₂) else true
  else if 0 ≤ a₂ then false
  else if a₁ = 0 then true
  else decide (a₁ ^ 2 * v₂ < a₂ ^ 2 * v₁)

/-- One iteration of the template loop of `detect_chords_from_chroma`:
`if not np.isnan(score) and score > best_score: best_score = score; best_chord = chord_name`.
The state is `(best_chord, best_score)` with the score as a pair. -/
def detectStep (nf : List ℚ) (b : Option String × ℚ × ℚ) (p : String × List ℚ) :
    Option String × ℚ × ℚ :=
  if scoreDefined nf p.2 && scoreGt (sxy nf p.2) (sxx nf * sxx p.2) b.2.1 b.2.2 then
    (some p.1, sxy nf p.2, sxx nf * sxx p.2)
  else b

/-- Per-frame body of `detect_chords_from_chroma`: normalize, loop over the
24 templates with running best initialized to `(None, -1)`, and emit the best
chord if `best_score > 0.5`, else the sentinel `'N/A'`. -/
def detectFrame (frame : List ℚ) : String :=
  let nf := normalize frame
  let best := chordTemplates.foldl (detectStep nf) (none, -1, 1)
  if scoreGt best.2.1 best.2.2 1 4 then best.1.getD "N/A" else "N/A"

/-- The whole of `detect_chords_from_chroma`: classify each time frame
(column of the chromagram) independently. -/
def detectChordsFromChroma (chroma : List (List ℚ)) : List String :=
  chroma.map detectFrame

/-- A frame correlating perfectly and equally with the `"C"` major and
`"A"` minor masks (its pitch classes are the union of the two triads):
a tie between template 0 (`"C"`) and template 21 (`"Am"`). -/
def tieFrame : List ℚ :=
  [1, 0, 0, 0, 1, 0, 0, 1, 0, 1, 0, 0]

/-- Number of occurrences of `c` in `l` (the count that
`collections.Counter` associates with the key `c`). -/
def countL (l : List String) (c : String) : ℕ :=
  (l.filter (fun x => decide (x = c))).length

/-- One step of scanning for the first-encountered most frequent element. -/
def mcStep (l : List String) (best c : String) : String :=
  if countL l best < countL l c then c else best

/-- Embedding of `Counter(window).most_common(1)[0][0]` (with `none` for an
empty window, where the source takes the `else` branch).  A `Counter` built
from a list keeps its keys in first-insertion order and
`most_common(1)` = `heapq.nlargest(1, items, key=count)` is stable, so the
result is the first-encountered element of maximal multiplicity; scanning
the list in order and replacing the running best only on a strictly larger
count computes exactly that element. -/
def mostCommon (l : List String) : Option String :=
  match l with
  | [] => none
  | a :: _ => some (l.foldl (mcStep l) a)

/-- The clipped window `chords[max(0, i - ws//2) : min(len(chords), i + ws//2 + 1)]`
of `smooth_chord_progression` (Nat subtraction is truncated, matching `max(0, ·)`). -/
def windowAt (chords : List String) (ws i : ℕ) : List String :=
  (chords.drop (i - ws / 2)).take (min chords.length (i + ws / 2 + 1) - (i - ws / 2))

/-- The window around index `i` with the `'N/A'` entries removed, the list the
source builds the `Counter` from. -/
def filteredWindow (chords : List String) (ws i : ℕ) : List String :=
  (windowAt chords ws i).filter (fun c => decide (c ≠ "N/A"))

/-- Body of `smooth_chord_progression` at one index. -/
def smoothAt (chords : List String) (ws i : ℕ) : String :=
  match mostCommon (filteredWindow chords ws i) with
  | some c => c
  | none => "N/A"

/-- The function `smooth_chord_progression(chords, window_size)`. -/
def smoothChordProgression (chords : List String) (ws : ℕ) : List String :=
  (List.range chords.length).map (fun i => smoothAt chords ws i)

/-- One entry of the progression list returned by `get_chord_progression`:
the dict `{'chord': ..., 'start_time': ..., 'end_time': ..., 'duration': ...}`. -/
structure ChordSegment where
  chord : String
  start_time : ℚ
  end_time : ℚ
  duration : ℚ
deriving DecidableEq

/-- The loop of `get_chord_progression`, written as a recursion over the
remaining labels: `i` is the index of the head of `l` in the full sequence,
`cur` is `current_chord` (`none` = Python `None`) and `start` is
`start_time`.  Closed segments are emitted in the order the source appends
them. -/
def progAux (fd : ℚ) : ℕ → Option String → ℚ → List String → List ChordSegment
  | i, some c, start, [] => [⟨c, start, i * fd, i * fd - start⟩]
  | _, none, _, [] => []
  | i, cur, start, c :: rest =>
    if some c ≠ cur ∧ c ≠ "N/A" then
      match cur with
      | some c' => ⟨c', start, i * fd, i * fd - start⟩ ::
          progAux fd (i + 1) (some c) (i * fd) rest
      | none => progAux fd (i + 1) (some c) (i * fd) rest
    else progAux fd (i + 1) cur start rest

/-- The function `get_chord_progression(chords)` with the frame duration
`hop_length / sr` abstracted as the parameter `fd`; `current_chord` starts as
`None` and `start_time` as `0`. -/
def getChordProgression (chords : List String) (fd : ℚ) : List ChordSegment :=
  progAux fd 0 none 0 chords

/-- Index-level shadow of `progAux`: the same recursion, recording for each
segment only its chord, its opening frame index and its closing frame index
(`cur` carries the pending chord with its opening index).  The bridge lemma
`progAux_eq_cuts` proves that `progAux` is its image under
`(c, a, b) ↦ ⟨c, a * fd, b * fd, b * fd - a * fd⟩`. -/
def cutsAux : List String → ℕ → Option (String × ℕ) → List (String × ℕ × ℕ)
  | [], i, some (c, j) => [(c, j, i)]
  | [], _, none => []
  | c :: rest, i, none =>
    if c ≠ "N/A" then cutsAux rest (i + 1) (some (c, i))
    else cutsAux rest (i + 1) none
  | c :: rest, i, some (c', j) =>
    if c ≠ c' ∧ c ≠ "N/A" then (c', j, i) :: cutsAux rest (i + 1) (some (c, i))
    else cutsAux rest (i + 1) (some (c', j))

/-- Conversion from an index-level segment to a `ChordSegment`. -/
def segOf (fd : ℚ) (p : String × ℕ × ℕ) : ChordSegment :=
  ⟨p.1, p.2.1 * fd, p.2.2 * fd, p.2.2 * fd - p.2.1 * fd⟩

/-- Strict-order relation on index-level segments: both are non-degenerate
and the first closes before the second opens. -/
def segRel (p q : String × ℕ × ℕ) : Prop :=
  p.2.1 < p.2.2 ∧ q.2.1 < q.2.2 ∧ p.2.2 ≤ q.2.1

instance : IsTrans (String × ℕ × ℕ) segRel :=
  ⟨fun a b c hab hbc => ⟨hab.1, hbc.2.1, by
    have h1 := hab.2.2
    have h2 := hbc.1
    have h3 := hbc.2.2
    omega⟩⟩

/-- Local unanimity of a label sequence for a window size: at every index,
any two non-`'N/A'` labels of the clipped window agree. -/
def LocallyUnanimous (chords : List String) (ws : ℕ) : Prop :=
  ∀ i, i < chords.length → ∀ c ∈ filteredWindow chords ws i,
    ∀ c' ∈ filteredWindow chords ws i, c = c'

instance locallyUnanimousDec (chords : List String) (ws : ℕ) :
    Decidable (LocallyUnanimous chords ws) := by
  unfold LocallyUnanimous
  infer_instance

/-- Bridge between the faithful rational-time recursion and its index-level
shadow: `progAux` emits exactly the `segOf`-images of the `cutsAux` entries,
provided the pending `start_time` is the pending opening index times `fd`. -/
theorem progAux_eq_cuts (fd : ℚ) (l : List String) : ∀ (i : ℕ) (cur : Option (String × ℕ))
    (s : ℚ), (∀ c j, cur = some (c, j) → s = (j : ℚ) * fd) →
    progAux fd i (cur.map Prod.fst) s l = (cutsAux l i cur).map (segOf fd) := by
  induction l with
  | nil =>
    intro i cur s hs
    rcases cur with _ | ⟨c, j⟩
    · simp [progAux, cutsAux]
    · simp [progAux, cutsAux, segOf, hs c j rfl]
  | cons c rest ih =>
    intro i cur s hs
    rcases cur with _ | ⟨c', j⟩
    · by_cases hc : c = "N/A"
      · subst hc
        simp only [Option.map_none', progAux, cutsAux]
        rw [if_neg (by simp), if_neg (by simp)]
        exact ih (i + 1) none s hs
      · simp only [Option.map_none', progAux, cutsAux]
        rw [if_pos (by simp [hc]), if_pos hc]
        exact ih (i + 1) (some (c, i)) ((i : ℚ) * fd) (by simp)
    · by_cases hcond : c ≠ c' ∧ c ≠ "N/A"
      · simp only [Option.map_some', progAux, cutsAux]
        rw [if_pos (by simpa using hcond), if_pos hcond]
        simp only [List.map_cons]
        rw [hs c' j rfl]
        exact congrArg _ (ih (i + 1) (some (c, i)) ((i : ℚ) * fd) (by simp))
      · simp only [Option.map_some', progAux, cutsAux]
        rw [if_neg (by simpa using hcond), if_neg hcond]
        exact ih (i + 1) (some (c', j)) s hs

/-- The segment list of `get_chord_progression` is the `segOf`-image of the
index-level cut list. -/
theorem getChordProgression_eq_cuts (chords : List String) (fd : ℚ) :
    getChordProgression chords fd = (cutsAux chords 0 none).map (segOf fd) := by
  have h := progAux_eq_cuts fd chords 0 none 0 (by intro c j h; cases h)
  simpa [getChordProgression] using h

/-- With a pending open segment, the first emitted entry is that segment:
its chord and opening index are the pending ones and it closes no earlier
than the current index. -/
theorem cutsAux_head_some (l : List String) : ∀ (i : ℕ) (c : String) (j : ℕ),
    ∃ e tl, cutsAux l i (some (c, j)) = (c, j, e) :: tl ∧ i ≤ e := by
  induction l with
  | nil => intro i c j; exact ⟨i, [], rfl, le_refl i⟩
  | cons x rest ih =>
    intro i c j
    by_cases hcond : x ≠ c ∧ x ≠ "N/A"
    · exact ⟨i, cutsAux rest (i + 1) (some (x, i)), by simp [cutsAux, hcond], le_refl i⟩
    · obtain ⟨e, tl, heq, he⟩ := ih (i + 1) c j
      exact ⟨e, tl, by simp only [cutsAux, if_neg hcond]; exact heq, Nat.le_of_succ_le he⟩

/-- Every emitted segment closes no earlier than the current scan index. -/
theorem cutsAux_lb (l : List String) : ∀ (i : ℕ) (cur : Option (String × ℕ))
    (p : String × ℕ × ℕ), p ∈ cutsAux l i cur → i ≤ p.2.2 := by
  induction l with
  | nil =>
    intro i cur p hp
    rcases cur with _ | ⟨c, j⟩
    · simp [cutsAux] at hp
    · simp only [cutsAux, List.mem_singleton] at hp
      subst hp; exact le_refl i
  | cons x rest ih =>
    intro i cur p hp
    rcases cur with _ | ⟨c, j⟩
    · simp only [cutsAux] at hp
      split_ifs at hp with h
      · exact Nat.le_of_succ_le (ih (i + 1) _ p hp)
      · exact Nat.le_of_succ_le (ih (i + 1) _ p hp)
    · simp only [cutsAux] at hp
      split_ifs at hp with h
      · rcases List.mem_cons.mp hp with h1 | h1
        · subst h1; exact le_refl i
        · exact Nat.le_of_succ_le (ih (i + 1) _ p h1)
      · exact Nat.le_of_succ_le (ih (i + 1) _ p hp)

/-- Every emitted segment spans at least one frame and closes within the
scanned range (pending opening indices lie strictly before the scan index). -/
theorem cutsAux_bounds (l : List String) : ∀ (i : ℕ) (cur : Option (String × ℕ)),
    (∀ c j, cur = some (c, j) → j < i) →
    ∀ p ∈ cutsAux l i cur, p.2.1 < p.2.2 ∧ p.2.2 ≤ i + l.length := by
  induction l with
  | nil =>
    intro i cur hcur p hp
    rcases cur with _ | ⟨c, j⟩
    · simp [cutsAux] at hp
    · simp only [cutsAux, List.mem_singleton] at hp
      subst hp
      exact ⟨hcur c j rfl, by simp⟩
  | cons x rest ih =>
    intro i cur hcur p hp
    have hlen : i + 1 + rest.length = i + (x :: rest).length := by
      simp [List.length_cons]; omega
    rcases cur with _ | ⟨c, j⟩
    · simp only [cutsAux] at hp
      split_ifs at hp with h
      · obtain ⟨h1, h2⟩ := ih (i + 1) (some (x, i)) (by intro c j hcj; cases hcj; omega) p hp
        exact ⟨h1, by omega⟩
      · obtain ⟨h1, h2⟩ := ih (i + 1) none (by intro c j hcj; cases hcj) p hp
        exact ⟨h1, by omega⟩
    · simp only [cutsAux] at hp
      split_ifs at hp with h
      · rcases List.mem_cons.mp hp with h1 | h1
        · subst h1
          exact ⟨hcur c j rfl, by simp⟩
        · obtain ⟨h1, h2⟩ := ih (i + 1) (some (x, i)) (by intro c j hcj; cases hcj; omega) p h1
          exact ⟨h1, by omega⟩
      · obtain ⟨h1, h2⟩ := ih (i + 1) (some (c, j))
          (by intro c' j' hcj; cases hcj; have := hcur c j rfl; omega) p hp
        exact ⟨h1, by omega⟩

/-- Consecutive emitted segments share their boundary index. -/
theorem cutsAux_chain (l : List String) : ∀ (i : ℕ) (cur : Option (String × ℕ)),
    List.Chain' (fun p q : String × ℕ × ℕ => p.2.2 = q.2.1) (cutsAux l i cur) := by
  induction l with
  | nil =>
    intro i cur
    rcases cur with _ | ⟨c, j⟩ <;> simp [cutsAux]
  | cons x rest ih =>
    intro i cur
    rcases cur with _ | ⟨c, j⟩
    · simp only [cutsAux]
      split_ifs with h
      · exact ih (i + 1) _
      · exact ih (i + 1) _
    · simp only [cutsAux]
      split_ifs with h
      · obtain ⟨e, tl, heq, _⟩ := cutsAux_head_some rest (i + 1) x i
        rw [heq]
        refine List.Chain'.cons rfl ?_
        rw [← heq]
        exact ih (i + 1) _
      · exact ih (i + 1) _

/-- Shifting an index statement from the tail of a list to the list itself. -/
theorem get?_shift (x s : String) (rest : List String) (i k : ℕ) (hk : i + 1 ≤ k)
    (h : rest.get? (k - (i + 1)) = some s) : (x :: rest).get? (k - i) = some s := by
  have heq : k - i = (k - (i + 1)) + 1 := by omega
  rw [heq, List.get?_cons_succ]
  exact h

/-- Every frame index holding a non-sentinel label is covered by an emitted
segment carrying that label. -/
theorem cutsAux_cover (l : List String) : ∀ (i : ℕ) (cur : Option (String × ℕ)),
    (∀ c j, cur = some (c, j) → j ≤ i) →
    ∀ (m : ℕ) (cj : String), l.get? m = some cj → cj ≠ "N/A" →
    ∃ p ∈ cutsAux l i cur, p.2.1 ≤ i + m ∧ i + m < p.2.2 ∧ p.1 = cj := by
  induction l with
  | nil => intro i cur hcur m cj hm hcj; simp at hm
  | cons x rest ih =>
    intro i cur hcur m cj hm hcj
    cases m with
    | zero =>
      rw [List.get?_cons_zero] at hm
      injection hm with hm
      subst hm
      rcases cur with _ | ⟨c', j⟩
      · rw [cutsAux, if_pos hcj]
        obtain ⟨e, tl, heq, he⟩ := cutsAux_head_some rest (i + 1) x i
        refine ⟨(x, i, e), ?_, by show i ≤ i + 0; omega, by show i + 0 < e; omega, rfl⟩
        rw [heq]; simp
      · by_cases hx : x = c'
        · subst hx
          rw [cutsAux, if_neg (by simp [hcj])]
          obtain ⟨e, tl, heq, he⟩ := cutsAux_head_some rest (i + 1) x j
          refine ⟨(x, j, e), ?_, ?_, by show i + 0 < e; omega, rfl⟩
          · rw [heq]; simp
          · have := hcur x j rfl; show j ≤ i + 0; omega
        · rw [cutsAux, if_pos ⟨hx, hcj⟩]
          obtain ⟨e, tl, heq, he⟩ := cutsAux_head_some rest (i + 1) x i
          refine ⟨(x, i, e), ?_, by show i ≤ i + 0; omega, by show i + 0 < e; omega, rfl⟩
          rw [heq]; simp
    | succ m' =>
      rw [List.get?_cons_succ] at hm
      rcases cur with _ | ⟨c', j⟩
      · rw [cutsAux]
        split_ifs with h
        · obtain ⟨p, hp, h1, h2, h3⟩ :=
            ih (i + 1) (some (x, i)) (by intro c j hcj'; cases hcj'; omega) m' cj hm hcj
          exact ⟨p, hp, by omega, by omega, h3⟩
        · obtain ⟨p, hp, h1, h2, h3⟩ :=
            ih (i + 1) none (by intro c j hcj'; cases hcj') m' cj hm hcj
          exact ⟨p, hp, by omega, by omega, h3⟩
      · rw [cutsAux]
        split_ifs with h
        · obtain ⟨p, hp, h1, h2, h3⟩ :=
            ih (i + 1) (some (x, i)) (by intro c j hcj'; cases hcj'; omega) m' cj hm hcj
          exact ⟨p, List.mem_cons_of_mem _ hp, by omega, by omega, h3⟩
        · obtain ⟨p, hp, h1, h2, h3⟩ :=
            ih (i + 1) (some (c', j))
              (by intro c'' j' hcj'; cases hcj'; have := hcur c' j rfl; omega) m' cj hm hcj
          exact ⟨p, hp, by omega, by omega, h3⟩

/-- Every emitted segment carries a non-sentinel chord, opens at a frame
holding exactly that chord (or is the pending segment), and closes either at
the end of the sequence or at a frame holding a non-sentinel label: sentinel
frames never open or close a segment. -/
theorem cutsAux_segSpec (l : List String) : ∀ (i : ℕ) (cur : Option (String × ℕ)),
    (∀ c j, cur = some (c, j) → c ≠ "N/A") →
    ∀ p ∈ cutsAux l i cur,
      p.1 ≠ "N/A" ∧
      (cur = some (p.1, p.2.1) ∨ (i ≤ p.2.1 ∧ l.get? (p.2.1 - i) = some p.1)) ∧
      (p.2.2 = i + l.length ∨ ∃ c', l.get? (p.2.2 - i) = some c' ∧ c' ≠ "N/A") := by
  induction l with
  | nil =>
    intro i cur hcur p hp
    rcases cur with _ | ⟨c, j⟩
    · simp [cutsAux] at hp
    · simp only [cutsAux, List.mem_singleton] at hp
      subst hp
      exact ⟨hcur c j rfl, Or.inl rfl, Or.inl (by simp)⟩
  | cons x rest ih =>
    intro i cur hcur p hp
    rcases cur with _ | ⟨c', j⟩
    · rw [cutsAux] at hp
      split_ifs at hp with h
      · have hlb := cutsAux_lb rest (i + 1) (some (x, i)) p hp
        obtain ⟨hna, hstart, hend⟩ := ih (i + 1) (some (x, i))
          (by intro c j hcj; cases hcj; exact h) p hp
        refine ⟨hna, ?_, ?_⟩
        · rcases hstart with heq | ⟨hle, hget⟩
          · have hpr := Option.some.inj heq
            have h1 : x = p.1 := congrArg Prod.fst hpr
            have h2 : i = p.2.1 := congrArg Prod.snd hpr
            exact Or.inr ⟨by omega, by rw [← h2, Nat.sub_self, List.get?_cons_zero, h1]⟩
          · exact Or.inr ⟨by omega, get?_shift x p.1 rest i p.2.1 hle hget⟩
        · rcases hend with heq | ⟨c'', hget, hc''⟩
          · exact Or.inl (by simp [List.length_cons] at heq ⊢; omega)
          · exact Or.inr ⟨c'', get?_shift x c'' rest i p.2.2 hlb hget, hc''⟩
      · have hlb := cutsAux_lb rest (i + 1) none p hp
        obtain ⟨hna, hstart, hend⟩ := ih (i + 1) none (by intro c j hcj; cases hcj) p hp
        refine ⟨hna, ?_, ?_⟩
        · rcases hstart with heq | ⟨hle, hget⟩
          · cases heq
          · exact Or.inr ⟨by omega, get?_shift x p.1 rest i p.2.1 hle hget⟩
        · rcases hend with heq | ⟨c'', hget, hc''⟩
          · exact Or.inl (by simp [List.length_cons] at heq ⊢; omega)
          · exact Or.inr ⟨c'', get?_shift x c'' rest i p.2.2 hlb hget, hc''⟩
    · rw [cutsAux] at hp
      split_ifs at hp with h
      · rcases List.mem_cons.mp hp with rfl | hp'
        · exact ⟨hcur c' j rfl, Or.inl rfl,
            Or.inr ⟨x, by rw [Nat.sub_self, List.get?_cons_zero], h.2⟩⟩
        · have hlb := cutsAux_lb rest (i + 1) (some (x, i)) p hp'
          obtain ⟨hna, hstart, hend⟩ := ih (i + 1) (some (x, i))
            (by intro c j hcj; cases hcj; exact h.2) p hp'
          refine ⟨hna, ?_, ?_⟩
          · rcases hstart with heq | ⟨hle, hget⟩
            · have hpr := Option.some.inj heq
              have h1 : x = p.1 := congrArg Prod.fst hpr
              have h2 : i = p.2.1 := congrArg Prod.snd hpr
              exact Or.inr ⟨by omega, by rw [← h2, Nat.sub_self, List.get?_cons_zero, h1]⟩
            · exact Or.inr ⟨by omega, get?_shift x p.1 rest i p.2.1 hle hget⟩
          · rcases hend with heq | ⟨c'', hget, hc''⟩
            · exact Or.inl (by simp [List.length_cons] at heq ⊢; omega)
            · exact Or.inr ⟨c'', get?_shift x c'' rest i p.2.2 hlb hget, hc''⟩
      · have hlb := cutsAux_lb rest (i + 1) (some (c', j)) p hp
        obtain ⟨hna, hstart, hend⟩ := ih (i + 1) (some (c', j)) (fun c j' hcj => by
          cases hcj; exact hcur c' j rfl) p hp
        refine ⟨hna, ?_, ?_⟩
        · rcases hstart with heq | ⟨hle, hget⟩
          · exact Or.inl heq
          · exact Or.inr ⟨by omega, get?_shift x p.1 rest i p.2.1 hle hget⟩
        · rcases hend with heq | ⟨c'', hget, hc''⟩
          · exact Or.inl (by simp [List.length_cons] at heq ⊢; omega)
          · exact Or.inr ⟨c'', get?_shift x c'' rest i p.2.2 hlb hget, hc''⟩

/-- When scanning starts with no pending segment, the first emitted segment
opens at the first non-sentinel frame. -/
theorem cutsAux_first (l : List String) : ∀ (i : ℕ) (hd : String × ℕ × ℕ)
    (tl : List (String × ℕ × ℕ)), cutsAux l i none = hd :: tl →
    hd.2.1 = i + l.findIdx (fun c => decide (c ≠ "N/A")) := by
  induction l with
  | nil => intro i hd tl h; simp [cutsAux] at h
  | cons x rest ih =>
    intro i hd tl h
    by_cases hx : x = "N/A"
    · subst hx
      rw [cutsAux, if_neg (by simp)] at h
      have hrec := ih (i + 1) hd tl h
      rw [List.findIdx_cons]
      have hpred : decide ("N/A" ≠ "N/A") = false := by simp
      rw [hpred, cond_false]
      omega
    · rw [cutsAux, if_pos hx] at h
      obtain ⟨e, tl', heq, he⟩ := cutsAux_head_some rest (i + 1) x i
      rw [heq] at h
      injection h with h1 h2
      rw [List.findIdx_cons]
      have hpred : decide (x ≠ "N/A") = true := by simp [hx]
      rw [hpred, cond_true]
      simp [← h1]

/-- An all-sentinel scan with no pending segment emits nothing. -/
theorem cutsAux_allNA (l : List String) : ∀ (i : ℕ), (∀ c ∈ l, c = "N/A") →
    cutsAux l i none = [] := by
  induction l with
  | nil => intro i _; rfl
  | cons x rest ih =>
    intro i h
    have hx : x = "N/A" := h x (List.mem_cons_self x rest)
    subst hx
    rw [cutsAux, if_neg (by simp)]
    exact ih (i + 1) (fun c hc => h c (List.mem_cons_of_mem _ hc))

/-- A boundary-sharing chain of non-degenerate segments is a `segRel` chain. -/
theorem chain_strengthen (L : List (String × ℕ × ℕ))
    (hc : List.Chain' (fun p q => p.2.2 = q.2.1) L)
    (hb : ∀ p ∈ L, p.2.1 < p.2.2) : List.Chain' segRel L := by
  induction L with
  | nil => simp
  | cons a L ih =>
    rw [List.chain'_cons'] at hc ⊢
    refine ⟨?_, ih hc.2 (fun p hp => hb p (List.mem_cons_of_mem _ hp))⟩
    intro b hb'
    have hbL : b ∈ L := List.mem_of_mem_head? hb'
    exact ⟨hb a (List.mem_cons_self a L), hb b (List.mem_cons_of_mem _ hbL),
      le_of_eq (hc.1 b hb')⟩

/-- The emitted segments of a scan with no pending segment are pairwise
ordered and disjoint. -/
theorem cutsAux_pairwise (l : List String) (i : ℕ) :
    List.Pairwise segRel (cutsAux l i none) :=
  List.chain'_iff_pairwise.mp (chain_strengthen _ (cutsAux_chain l i none)
    (fun p hp => (cutsAux_bounds l i none (fun c j h => by cases h) p hp).1))

/-- Two members of a pairwise-related list are equal or related one way. -/
theorem pairwise_elim {α : Type} {R : α → α → Prop} (L : List α) (hL : L.Pairwise R) :
    ∀ {p q : α}, p ∈ L → q ∈ L → p = q ∨ R p q ∨ R q p := by
  induction hL with
  | nil => intro p q hp _; simp at hp
  | cons ha _ ih =>
    intro p q hp hq
    rcases List.mem_cons.mp hp with rfl | hp'
    · rcases List.mem_cons.mp hq with rfl | hq'
      · exact Or.inl rfl
      · exact Or.inr (Or.inl (ha q hq'))
    · rcases List.mem_cons.mp hq with rfl | hq'
      · exact Or.inr (Or.inr (ha p hp'))
      · exact ih hp' hq'

/-- The sum of coordinatewise squares of a list is nonnegative. -/
theorem sum_sq_nonneg (l : List ℚ) : 0 ≤ (List.zipWith (fun a b => a * b) l l).sum := by
  induction l with
  | nil => simp
  | cons a t ih =>
    rw [List.zipWith_cons_cons, List.sum_cons]
    nlinarith [mul_self_nonneg a]

/-- Cauchy–Schwarz for a list against the all-ones vector: the squared sum
is at most the length times the sum of squares. -/
theorem sq_sum_le (l : List ℚ) :
    l.sum * l.sum ≤ (l.length : ℚ) * (List.zipWith (fun a b => a * b) l l).sum := by
  induction l with
  | nil => simp
  | cons a t ih =>
    cases t with
    | nil => simp
    | cons b t'' =>
      have hpos : 0 < (b :: t'').length := List.length_pos.mpr (List.cons_ne_nil b t'')
      set L := b :: t'' with hL
      have hk1 : (1 : ℚ) ≤ (L.length : ℚ) := by exact_mod_cast hpos
      have hq := sum_sq_nonneg L
      show (a + L.sum) * (a + L.sum) ≤
        ((L.length + 1 : ℕ) : ℚ) * (a * a + (List.zipWith (fun a b => a * b) L L).sum)
      have hcast : ((L.length + 1 : ℕ) : ℚ) = (L.length : ℚ) + 1 := by push_cast; ring
      rw [hcast]
      nlinarith [sq_nonneg ((L.length : ℚ) * a - L.sum), ih, hq, hk1,
        mul_nonneg (by linarith : (0 : ℚ) ≤ (L.length : ℚ) + 1) (sub_nonneg.mpr ih)]

/-- A scaled sample variance is never negative, so a defined score's
denominator argument is strictly positive. -/
theorem sxx_nonneg (x : List ℚ) : 0 ≤ sxx x := by
  unfold sxx
  linarith [sq_sum_le x]

/-- When a score is defined, the represented denominator `Vx * Vy` is
strictly positive — exactly the precondition of `scoreGt_iff_real`. -/
theorem scoreDefined_pos (x y : List ℚ) (h : scoreDefined x y = true) :
    0 < sxx x * sxx y := by
  unfold scoreDefined at h
  rw [Bool.and_eq_true, decide_eq_true_eq, decide_eq_true_eq] at h
  exact mul_pos (lt_of_le_of_ne (sxx_nonneg x) (Ne.symm h.1))
    (lt_of_le_of_ne (sxx_nonneg y) (Ne.symm h.2))

/-- Comparison of products against square roots by squaring. -/
theorem sq_mul_lt_iff_sqrt (x y u v : ℝ) (hx : 0 ≤ x) (hy : 0 ≤ y)
    (hu : 0 ≤ u) (hv : 0 ≤ v) :
    x ^ 2 * u < y ^ 2 * v ↔ x * Real.sqrt u < y * Real.sqrt v := by
  rw [show x ^ 2 * u = (x * Real.sqrt u) ^ 2 by rw [mul_pow, Real.sq_sqrt hu],
    show y ^ 2 * v = (y * Real.sqrt v) ^ 2 by rw [mul_pow, Real.sq_sqrt hv]]
  constructor
  · intro h
    exact lt_of_pow_lt_pow_left 2 (mul_nonneg hy (Real.sqrt_nonneg _)) h
  · intro h
    exact pow_lt_pow_left h (mul_nonneg hx (Real.sqrt_nonneg _)) two_ne_zero

/-- Soundness of the exact rational comparison `scoreGt` with respect to the
real-number semantics of score pairs: for positive denominators it decides
exactly `a₂ / sqrt v₂ < a₁ / sqrt v₁`, i.e. the float comparison
`score > best_score` of the source. -/
theorem scoreGt_iff_real (a₁ v₁ a₂ v₂ : ℚ) (h₁ : 0 < v₁) (h₂ : 0 < v₂) :
    scoreGt a₁ v₁ a₂ v₂ = true ↔
      (a₂ : ℝ) / Real.sqrt (v₂ : ℝ) < (a₁ : ℝ) / Real.sqrt (v₁ : ℝ) := by
  have hv₁ : (0 : ℝ) < (v₁ : ℝ) := by exact_mod_cast h₁
  have hv₂ : (0 : ℝ) < (v₂ : ℝ) := by exact_mod_cast h₂
  have hs₁ : (0 : ℝ) < Real.sqrt (v₁ : ℝ) := Real.sqrt_pos.mpr hv₁
  have hs₂ : (0 : ℝ) < Real.sqrt (v₂ : ℝ) := Real.sqrt_pos.mpr hv₂
  rw [div_lt_div_iff hs₂ hs₁]
  unfold scoreGt
  split_ifs with ha₁ ha₂ hb hz
  · rw [decide_eq_true_eq]
    have hA₁ : (0 : ℝ) < (a₁ : ℝ) := by exact_mod_cast ha₁
    have hA₂ : (0 : ℝ) < (a₂ : ℝ) := by exact_mod_cast ha₂
    rw [show ((a₂ ^ 2 * v₁ < a₁ ^ 2 * v₂) ↔
        ((a₂ : ℝ) ^ 2 * (v₁ : ℝ) < (a₁ : ℝ) ^ 2 * (v₂ : ℝ))) from by
      constructor <;> intro h <;> exact_mod_cast h]
    exact sq_mul_lt_iff_sqrt _ _ _ _ (le_of_lt hA₂) (le_of_lt hA₁)
      (le_of_lt hv₁) (le_of_lt hv₂)
  · simp only [true_iff]
    have hA₁ : (0 : ℝ) < (a₁ : ℝ) := by exact_mod_cast ha₁
    have hA₂ : (a₂ : ℝ) ≤ 0 := by exact_mod_cast not_lt.mp ha₂
    nlinarith [mul_pos hA₁ hs₂, hs₁, hA₂]
  · simp only [false_iff, not_lt]
    have hA₁ : (a₁ : ℝ) ≤ 0 := by exact_mod_cast not_lt.mp ha₁
    have hA₂ : (0 : ℝ) ≤ (a₂ : ℝ) := by exact_mod_cast hb
    nlinarith [hs₁, hs₂]
  · simp only [true_iff]
    have hA₂ : (a₂ : ℝ) < 0 := by exact_mod_cast not_le.mp hb
    rw [hz]
    have hlt : (a₂ : ℝ) * Real.sqrt (v₁ : ℝ) < 0 := mul_neg_of_neg_of_pos hA₂ hs₁
    simpa using hlt
  · rw [decide_eq_true_eq]
    have hA₁ : (a₁ : ℝ) < 0 := by
      have : a₁ < 0 := lt_of_le_of_ne (not_lt.mp ha₁) hz
      exact_mod_cast this
    have hA₂ : (a₂ : ℝ) < 0 := by exact_mod_cast not_le.mp hb
    have hiff := sq_mul_lt_iff_sqrt (-(a₁ : ℝ)) (-(a₂ : ℝ)) (v₂ : ℝ) (v₁ : ℝ)
      (le_of_lt (neg_pos.mpr hA₁)) (le_of_lt (neg_pos.mpr hA₂))
      (le_of_lt hv₂) (le_of_lt hv₁)
    rw [neg_sq, neg_sq, neg_mul, neg_mul, neg_lt_neg_iff] at hiff
    rw [show ((a₁ ^ 2 * v₂ < a₂ ^ 2 * v₁) ↔
        ((a₁ : ℝ) ^ 2 * (v₂ : ℝ) < (a₂ : ℝ) ^ 2 * (v₁ : ℝ))) from by
      constructor <;> intro h <;> exact_mod_cast h]
    exact hiff

/-- If no remaining template has a defined score beating the running best,
the fold of the template loop leaves the best unchanged. -/
theorem detect_fold_no_update (nf : List ℚ) : ∀ (L : List (String × List ℚ))
    (b : Option String × ℚ × ℚ),
    (∀ p ∈ L, scoreDefined nf p.2 = true →
      scoreGt (sxy nf p.2) (sxx nf * sxx p.2) b.2.1 b.2.2 = false) →
    L.foldl (detectStep nf) b = b := by
  intro L
  induction L with
  | nil => intro b _; rfl
  | cons p L ih =>
    intro b h
    have hstep : detectStep nf b p = b := by
      unfold detectStep
      cases hdef : scoreDefined nf p.2 with
      | false => rw [if_neg (by simp)]
      | true =>
        rw [if_neg (by
          rw [Bool.true_and, h p (List.mem_cons_self p L) hdef]
          exact Bool.false_ne_true)]
    rw [List.foldl_cons, hstep]
    exact ih b (fun q hq => h q (List.mem_cons_of_mem _ hq))

/-- The fold of the template loop either keeps its initial best or ends on
the (defined) score of one of the scanned templates. -/
theorem detect_fold_result (nf : List ℚ) : ∀ (L : List (String × List ℚ))
    (b : Option String × ℚ × ℚ),
    L.foldl (detectStep nf) b = b ∨
    ∃ p ∈ L, scoreDefined nf p.2 = true ∧
      L.foldl (detectStep nf) b = (some p.1, sxy nf p.2, sxx nf * sxx p.2) := by
  intro L
  induction L with
  | nil => intro b; exact Or.inl rfl
  | cons p L ih =>
    intro b
    rw [List.foldl_cons]
    by_cases hcond : (scoreDefined nf p.2 &&
        scoreGt (sxy nf p.2) (sxx nf * sxx p.2) b.2.1 b.2.2) = true
    · have hstep : detectStep nf b p = (some p.1, sxy nf p.2, sxx nf * sxx p.2) := by
        unfold detectStep
        rw [if_pos hcond]
      rcases ih (detectStep nf b p) with h | ⟨q, hq, hqdef, heq⟩
      · refine Or.inr ⟨p, List.mem_cons_self p L, ?_, by rw [h, hstep]⟩
        exact (Bool.and_eq_true _ _).mp hcond |>.1
      · exact Or.inr ⟨q, List.mem_cons_of_mem _ hq, hqdef, heq⟩
    · have hstep : detectStep nf b p = b := by
        unfold detectStep
        rw [if_neg hcond]
      rw [hstep]
      rcases ih b with h | ⟨q, hq, hqdef, heq⟩
      · exact Or.inl h
      · exact Or.inr ⟨q, List.mem_cons_of_mem _ hq, hqdef, heq⟩

/-- A score strictly above the `0.5` threshold is in particular strictly
above the initial best `-1`. -/
theorem scoreGt_init_of_thresh (a v : ℚ) (h : scoreGt a v 1 4 = true) :
    scoreGt a v (-1) 1 = true := by
  unfold scoreGt at h ⊢
  by_cases ha : 0 < a
  · rw [if_pos ha, if_neg (by norm_num : ¬(0 : ℚ) < -1)]
  · rw [if_neg ha, if_pos (by norm_num : (0 : ℚ) ≤ 1)] at h
    exact absurd h Bool.false_ne_true

/-- C1 amended: when a template's score is defined, beats every earlier
defined template's score, is beaten by no later defined template's score,
and exceeds the 0.5 threshold, the classifier returns that template's chord
— under the strict `>` comparison the EARLIEST template attaining the
maximum wins a tie, not the latest. -/
theorem C1_earlier_template_wins_tie (f : List ℚ) (T₁ T₂ : List (String × List ℚ))
    (n : String) (t : List ℚ) (hsplit : chordTemplates = T₁ ++ (n, t) :: T₂)
    (hdef : scoreDefined (normalize f) t = true)
    (hbeat : ∀ p ∈ T₁, scoreDefined (normalize f) p.2 = true →
      scoreGt (sxy (normalize f) t) (sxx (normalize f) * sxx t)
        (sxy (normalize f) p.2) (sxx (normalize f) * sxx p.2) = true)
    (hnotbeaten : ∀ p ∈ T₂, scoreDefined (normalize f) p.2 = true →
      scoreGt (sxy (normalize f) p.2) (sxx (normalize f) * sxx p.2)
        (sxy (normalize f) t) (sxx (normalize f) * sxx t) = false)
    (hthresh : scoreGt (sxy (normalize f) t) (sxx (normalize f) * sxx t) 1 4 = true) :
    detectFrame f = n := by
  rw [show detectFrame f =
      (if scoreGt ((chordTemplates.foldl (detectStep (normalize f)) (none, -1, 1)).2.1)
          ((chordTemplates.foldl (detectStep (normalize f)) (none, -1, 1)).2.2) 1 4 = true
        then (chordTemplates.foldl (detectStep (normalize f)) (none, -1, 1)).1.getD "N/A"
        else "N/A") from rfl]
  rw [hsplit, List.foldl_append, List.foldl_cons]
  have hb₁ := detect_fold_result (normalize f) T₁ (none, -1, 1)
  have hstep : detectStep (normalize f) (T₁.foldl (detectStep (normalize f)) (none, -1, 1))
      (n, t) = (some n, sxy (normalize f) t, sxx (normalize f) * sxx t) := by
    rcases hb₁ with h | ⟨q, hq, hqdef, heq⟩
    · rw [h]
      show (if (scoreDefined (normalize f) t &&
          scoreGt (sxy (normalize f) t) (sxx (normalize f) * sxx t) (-1) 1) = true
        then (some n, sxy (normalize f) t, sxx (normalize f) * sxx t)
        else (none, -1, 1)) = _
      rw [if_pos (by rw [hdef, Bool.true_and]; exact scoreGt_init_of_thresh _ _ hthresh)]
    · rw [heq]
      show (if (scoreDefined (normalize f) t &&
          scoreGt (sxy (normalize f) t) (sxx (normalize f) * sxx t)
            (sxy (normalize f) q.2) (sxx (normalize f) * sxx q.2)) = true
        then (some n, sxy (normalize f) t, sxx (normalize f) * sxx t)
        else (some q.1, sxy (normalize f) q.2, sxx (normalize f) * sxx q.2)) = _
      rw [if_pos (by rw [hdef, Bool.true_and]; exact hbeat q hq hqdef)]
  rw [hstep, detect_fold_no_update (normalize f) T₂ _ (by
    intro q hq hqdef
    exact hnotbeaten q hq hqdef)]
  rw [if_pos hthresh]
  rfl

/-- Witness for the amended C1: on `tieFrame`, templates `"C"` (earliest)
and `"Am"` (later) tie at the maximal score, and the classifier returns
`"C"`. -/
theorem C1_earlier_template_wins_tie_witness : detectFrame tieFrame = "C" :=
  C1_earlier_template_wins_tie tieFrame []
    [("C#",  [0, 1, 0, 0, 0, 1, 0, 0, 1, 0, 0, 0]),
     ("D",   [0, 0, 1, 0, 0, 0, 1, 0, 0, 1, 0, 0]),
     ("D#",  [0, 0, 0, 1, 0, 0, 0, 1, 0, 0, 1, 0]),
     ("E",   [0, 0, 0, 0, 1, 0, 0, 0, 1, 0, 0, 1]),
     ("F",   [1, 0, 0, 0, 0, 1, 0, 0, 0, 1, 0, 0]),
     ("F#",  [0, 1, 0, 0, 0, 0, 1, 0, 0, 0, 1, 0]),
     ("G",   [0, 0, 1, 0, 0, 0, 0, 1, 0, 0, 0, 1]),
     ("G#",  [1, 0, 0, 1, 0, 0, 0, 0, 1, 0, 0, 0]),
     ("A",   [0, 1, 0, 0, 1, 0, 0, 0, 0, 1, 0, 0]),
     ("A#",  [0, 0, 1, 0, 0, 1, 0, 0, 0, 0, 1, 0]),
     ("B",   [0, 0, 0, 1, 0, 0, 1, 0, 0, 0, 0, 1]),
     ("Cm",  [1, 0, 0, 1, 0, 0, 0, 1, 0, 0, 0, 0]),
     ("C#m", [0, 1, 0, 0, 1, 0, 0, 0, 1, 0, 0, 0]),
     ("Dm",  [0, 0, 1, 0, 0, 1, 0, 0, 0, 1, 0, 0]),
     ("D#m", [0, 0, 0, 1, 0, 0, 1, 0, 0, 0, 1, 0]),
     ("Em",  [0, 0, 0, 0, 1, 0, 0, 1, 0, 0, 0, 1]),
     ("Fm",  [1, 0, 0, 0, 0, 1, 0, 0, 1, 0, 0, 0]),
     ("F#m", [0, 1, 0, 0, 0, 0, 1, 0, 0, 1, 0, 0]),
     ("Gm",  [0, 0, 1, 0, 0, 0, 0, 1, 0, 0, 1, 0]),
     ("G#m", [0, 0, 0, 1, 0, 0, 0, 0, 1, 0, 0, 1]),
     ("Am",  [1, 0, 0, 0, 1, 0, 0, 0, 0, 1, 0, 0]),
     ("A#m", [0, 1, 0, 0, 0, 1, 0, 0, 0, 0, 1, 0]),
     ("Bm",  [0, 0, 1, 0, 0, 0, 1, 0, 0, 0, 0, 1])]
    "C" [1, 0, 0, 0, 1, 0, 0, 1, 0, 0, 0, 0]
    rfl (by decide!) (by simp) (by decide!) (by decide!)

/-- C1 counterexample: on `tieFrame` the templates `"C"` (position 0 of the
iteration order) and `"Am"` (position 21) have equal defined score pairs —
hence equal real correlation scores — no defined template scores strictly
higher, the score exceeds 0.5, yet the classifier returns the EARLIER
template `"C"`, not the later-iterated `"Am"` as the claim requires. -/
theorem C1_counterexample :
    chordTemplates.get? 0 = some ("C", [1, 0, 0, 0, 1, 0, 0, 1, 0, 0, 0, 0]) ∧
    chordTemplates.get? 21 = some ("Am", [1, 0, 0, 0, 1, 0, 0, 0, 0, 1, 0, 0]) ∧
    scoreDefined (normalize tieFrame) [1, 0, 0, 0, 1, 0, 0, 1, 0, 0, 0, 0] = true ∧
    scoreDefined (normalize tieFrame) [1, 0, 0, 0, 1, 0, 0, 0, 0, 1, 0, 0] = true ∧
    sc (normalize tieFrame) [1, 0, 0, 0, 1, 0, 0, 1, 0, 0, 0, 0] =
      sc (normalize tieFrame) [1, 0, 0, 0, 1, 0, 0, 0, 0, 1, 0, 0] ∧
    (∀ p ∈ chordTemplates, scoreDefined (normalize tieFrame) p.2 = true →
      scoreGt (sxy (normalize tieFrame) p.2) (sxx (normalize tieFrame) * sxx p.2)
        (sxy (normalize tieFrame) [1, 0, 0, 0, 1, 0, 0, 1, 0, 0, 0, 0])
        (sxx (normalize tieFrame) * sxx [1, 0, 0, 0, 1, 0, 0, 1, 0, 0, 0, 0]) = false) ∧
    scoreGt (sxy (normalize tieFrame) [1, 0, 0, 0, 1, 0, 0, 1, 0, 0, 0, 0])
      (sxx (normalize tieFrame) * sxx [1, 0, 0, 0, 1, 0, 0, 1, 0, 0, 0, 0]) 1 4 = true ∧
    detectFrame tieFrame = "C" ∧ "C" ≠ "Am" := by
  decide!

/-- C3: feeding any of the 24 template masks to the classifier returns that
template's chord identifier; the matching template's correlation score is a
perfect positive correlation — its pair `(A, V)` denotes the real number
`A / sqrt V = 1` — and it is strictly above the 0.5 threshold. -/
theorem C3_template_self_match (p : String × List ℚ) (hp : p ∈ chordTemplates) :
    detectFrame p.2 = p.1 ∧
    ((sc (normalize p.2) p.2).1 : ℝ) / Real.sqrt ((sc (normalize p.2) p.2).2 : ℝ) = 1 ∧
    scoreGt (sc (normalize p.2) p.2).1 (sc (normalize p.2) p.2).2 1 4 = true := by
  have hkey : ∀ q ∈ chordTemplates, detectFrame q.2 = q.1 ∧
      sc (normalize q.2) q.2 = (9, 81) ∧
      scoreGt (sc (normalize q.2) q.2).1 (sc (normalize q.2) q.2).2 1 4 = true := by
    decide!
  obtain ⟨h1, h2, h3⟩ := hkey p hp
  refine ⟨h1, ?_, h3⟩
  rw [h2]
  show ((9 : ℚ) : ℝ) / Real.sqrt ((81 : ℚ) : ℝ) = 1
  rw [show ((81 : ℚ) : ℝ) = 9 ^ 2 by norm_num,
    Real.sqrt_sq (by norm_num : (0 : ℝ) ≤ 9)]
  norm_num

/-- Witness for C3 at the template `("C", its mask)`. -/
theorem C3_template_self_match_witness :
    detectFrame [1, 0, 0, 0, 1, 0, 0, 1, 0, 0, 0, 0] = "C" ∧
    ((sc (normalize [1, 0, 0, 0, 1, 0, 0, 1, 0, 0, 0, 0])
        [1, 0, 0, 0, 1, 0, 0, 1, 0, 0, 0, 0]).1 : ℝ) /
      Real.sqrt ((sc (normalize [1, 0, 0, 0, 1, 0, 0, 1, 0, 0, 0, 0])
        [1, 0, 0, 0, 1, 0, 0, 1, 0, 0, 0, 0]).2 : ℝ) = 1 ∧
    scoreGt
      (sc (normalize [1, 0, 0, 0, 1, 0, 0, 1, 0, 0, 0, 0])
        [1, 0, 0, 0, 1, 0, 0, 1, 0, 0, 0, 0]).1
      (sc (normalize [1, 0, 0, 0, 1, 0, 0, 1, 0, 0, 0, 0])
        [1, 0, 0, 0, 1, 0, 0, 1, 0, 0, 0, 0]).2 1 4 = true :=
  C3_template_self_match ("C", [1, 0, 0, 0, 1, 0, 0, 1, 0, 0, 0, 0]) (by decide!)

/-- C7: on a frame whose 12 components are all zero, normalization is
skipped (the frame is left unchanged), every correlation against a template
is undefined (NaN) hence excluded, and the frame is classified `'N/A'`;
`detectFrame` is total, so no exception can arise. -/
theorem C7_all_zero_frame_unknown (f : List ℚ) (hlen : f.length = 12)
    (hz : ∀ x ∈ f, x = 0) :
    normalize f = f ∧
    (∀ p ∈ chordTemplates, scoreDefined (normalize f) p.2 = false) ∧
    detectFrame f = "N/A" := by
  have hf : f = List.replicate 12 0 := List.eq_replicate.mpr ⟨hlen, hz⟩
  subst hf
  refine ⟨by decide!, by decide!, by decide!⟩

/-- Witness for C7 at the literal all-zero frame. -/
theorem C7_all_zero_frame_unknown_witness :
    normalize (List.replicate 12 (0 : ℚ)) = List.replicate 12 (0 : ℚ) ∧
    (∀ p ∈ chordTemplates,
      scoreDefined (normalize (List.replicate 12 (0 : ℚ))) p.2 = false) ∧
    detectFrame (List.replicate 12 (0 : ℚ)) = "N/A" :=
  C7_all_zero_frame_unknown (List.replicate 12 0) (by decide!) (by decide!)

/-- C2: on `["C","C","C","N/A","C","G","G"]` with frame duration `1/10`,
`get_chord_progression` returns exactly the two segments
`{C, 0, 0.5, 0.5}` and `{G, 0.5, 0.7, 0.2}`; and in general every returned
segment opens at a frame that holds exactly the segment's (non-`'N/A'`)
chord and closes either at the end of the sequence or at a frame holding a
non-`'N/A'` label, so an `'N/A'` frame never starts or closes a segment —
it is absorbed into the open segment. -/
theorem C2_segment_absorbs_unknown :
    (getChordProgression ["C", "C", "C", "N/A", "C", "G", "G"] (1 / 10) =
      [⟨"C", 0, 1 / 2, 1 / 2⟩, ⟨"G", 1 / 2, 7 / 10, 1 / 5⟩]) ∧
    ∀ (chords : List String) (fd : ℚ), ∀ s ∈ getChordProgression chords fd,
      ∃ a b : ℕ, s.start_time = (a : ℚ) * fd ∧ s.end_time = (b : ℚ) * fd ∧ a < b ∧
        s.chord ≠ "N/A" ∧ chords.get? a = some s.chord ∧
        (b = chords.length ∨ ∃ c', chords.get? b = some c' ∧ c' ≠ "N/A") := by
  constructor
  · decide!
  · intro chords fd s hs
    rw [getChordProgression_eq_cuts] at hs
    obtain ⟨p, hp, rfl⟩ := List.mem_map.mp hs
    obtain ⟨hna, hstart, hend⟩ :=
      cutsAux_segSpec chords 0 none (fun c j h => by cases h) p hp
    obtain ⟨hab, _⟩ := cutsAux_bounds chords 0 none (fun c j h => by cases h) p hp
    refine ⟨p.2.1, p.2.2, rfl, rfl, hab, hna, ?_, ?_⟩
    · rcases hstart with heq | ⟨_, hget⟩
      · cases heq
      · rw [Nat.sub_zero] at hget; exact hget
    · rcases hend with heq | ⟨c', hget, hc'⟩
      · exact Or.inl (by omega)
      · rw [Nat.sub_zero] at hget; exact Or.inr ⟨c', hget, hc'⟩

/-- Witness for C2: the general clause applied to the concrete example, at
its first segment. -/
theorem C2_segment_absorbs_unknown_witness :
    ∃ a b : ℕ,
      (⟨"C", 0, 1 / 2, 1 / 2⟩ : ChordSegment).start_time = (a : ℚ) * (1 / 10) ∧
      (⟨"C", 0, 1 / 2, 1 / 2⟩ : ChordSegment).end_time = (b : ℚ) * (1 / 10) ∧ a < b ∧
      (⟨"C", 0, 1 / 2, 1 / 2⟩ : ChordSegment).chord ≠ "N/A" ∧
      (["C", "C", "C", "N/A", "C", "G", "G"].get? a =
        some (⟨"C", 0, 1 / 2, 1 / 2⟩ : ChordSegment).chord) ∧
      (b = ["C", "C", "C", "N/A", "C", "G", "G"].length ∨
        ∃ c', ["C", "C", "C", "N/A", "C", "G", "G"].get? b = some c' ∧ c' ≠ "N/A") :=
  C2_segment_absorbs_unknown.2 ["C", "C", "C", "N/A", "C", "G", "G"] (1 / 10)
    ⟨"C", 0, 1 / 2, 1 / 2⟩ (by decide!)

/-- C8: an all-`'N/A'` label sequence of any length yields the empty
progression (and, being a total function, `get_chord_progression` raises
nothing). -/
theorem C8_all_unknown_empty (n : ℕ) (fd : ℚ) (_hfd : 0 < fd) :
    getChordProgression (List.replicate n "N/A") fd = [] := by
  rw [getChordProgression_eq_cuts,
    cutsAux_allNA _ 0 (fun c hc => List.eq_of_mem_replicate hc)]
  rfl

/-- Witness for C8 at `n = 4`, `fd = 1/10`. -/
theorem C8_all_unknown_empty_witness :
    getChordProgression (List.replicate 4 "N/A") (1 / 10) = [] :=
  C8_all_unknown_empty 4 (1 / 10) (by decide!)

/-- C10: the returned segment list is time-contiguous and ordered — the
first segment starts at (index of the first non-`'N/A'` label) × fd,
each segment's start time is the previous segment's end time, and every
segment lasts at least one frame (strictly positive duration). -/
theorem C10_progression_contiguous (chords : List String) (fd : ℚ) (hfd : 0 < fd) :
    (∀ hd tl, getChordProgression chords fd = hd :: tl →
      hd.start_time = ((chords.findIdx (fun c => decide (c ≠ "N/A")) : ℕ) : ℚ) * fd) ∧
    List.Chain' (fun s₁ s₂ => s₂.start_time = s₁.end_time) (getChordProgression chords fd) ∧
    ∀ s ∈ getChordProgression chords fd, fd ≤ s.duration ∧ 0 < s.duration := by
  refine ⟨?_, ?_, ?_⟩
  · intro hd tl h
    rw [getChordProgression_eq_cuts] at h
    cases hcuts : cutsAux chords 0 none with
    | nil => rw [hcuts] at h; cases h
    | cons p tl₀ =>
      rw [hcuts] at h
      injection h with h1 _
      have hfirst := cutsAux_first chords 0 p tl₀ hcuts
      rw [← h1]
      show (p.2.1 : ℚ) * fd = _
      rw [hfirst]
      norm_num
  · rw [getChordProgression_eq_cuts, List.chain'_map]
    refine (cutsAux_chain chords 0 none).imp ?_
    intro p q hpq
    show (q.2.1 : ℚ) * fd = (p.2.2 : ℚ) * fd
    rw [hpq]
  · intro s hs
    rw [getChordProgression_eq_cuts] at hs
    obtain ⟨p, hp, rfl⟩ := List.mem_map.mp hs
    have hb := (cutsAux_bounds chords 0 none (fun c j h => by cases h) p hp).1
    have hcast : (p.2.1 : ℚ) + 1 ≤ (p.2.2 : ℚ) := by exact_mod_cast hb
    constructor
    · show fd ≤ (p.2.2 : ℚ) * fd - (p.2.1 : ℚ) * fd
      nlinarith
    · show 0 < (p.2.2 : ℚ) * fd - (p.2.1 : ℚ) * fd
      nlinarith

/-- Witness for C10 on `["N/A", "C", "C", "G"]` with `fd = 1/2`. -/
theorem C10_progression_contiguous_witness :
    (∀ hd tl, getChordProgression ["N/A", "C", "C", "G"] (1 / 2) = hd :: tl →
      hd.start_time =
        ((["N/A", "C", "C", "G"].findIdx (fun c => decide (c ≠ "N/A")) : ℕ) : ℚ) * (1 / 2)) ∧
    List.Chain' (fun s₁ s₂ => s₂.start_time = s₁.end_time)
      (getChordProgression ["N/A", "C", "C", "G"] (1 / 2)) ∧
    ∀ s ∈ getChordProgression ["N/A", "C", "C", "G"] (1 / 2),
      (1 : ℚ) / 2 ≤ s.duration ∧ 0 < s.duration :=
  C10_progression_contiguous ["N/A", "C", "C", "G"] (1 / 2) (by decide!)

/-- Invariant of the scan inside `mostCommon`: the running best is an
element of `l` whose count dominates every element already scanned, and
everything strictly before its first occurrence in `l` has a strictly
smaller count. -/
theorem mc_fold_inv (l : List String) : ∀ (suf pre : List String) (b : String),
    l = pre ++ suf →
    (b ∈ l ∧ (∀ c ∈ pre, countL l c ≤ countL l b) ∧
      ∃ l₁ l₂, l = l₁ ++ b :: l₂ ∧ b ∉ l₁ ∧ ∀ c ∈ l₁, countL l c < countL l b) →
    (List.foldl (mcStep l) b suf) ∈ l ∧
      (∀ c ∈ l, countL l c ≤ countL l (List.foldl (mcStep l) b suf)) ∧
      ∃ l₁ l₂, l = l₁ ++ (List.foldl (mcStep l) b suf) :: l₂ ∧
        (List.foldl (mcStep l) b suf) ∉ l₁ ∧
        ∀ c ∈ l₁, countL l c < countL l (List.foldl (mcStep l) b suf) := by
  intro suf
  induction suf with
  | nil =>
    intro pre b hl hinv
    simp only [List.foldl_nil]
    have hpre : l = pre := by rw [hl, List.append_nil]
    exact ⟨hinv.1, fun c hc => hinv.2.1 c (hpre ▸ hc), hinv.2.2⟩
  | cons x suf ih =>
    intro pre b hl hinv
    simp only [List.foldl_cons]
    apply ih (pre ++ [x]) (mcStep l b x) (by rw [hl, List.append_assoc]; rfl)
    unfold mcStep
    by_cases hlt : countL l b < countL l x
    · rw [if_pos hlt]
      refine ⟨?_, ?_, ?_⟩
      · rw [hl]
        exact List.mem_append_right _ (List.mem_cons_self _ _)
      · intro c hc
        rcases List.mem_append.mp hc with hc | hc
        · exact le_of_lt (lt_of_le_of_lt (hinv.2.1 c hc) hlt)
        · rw [List.mem_singleton] at hc; subst hc; exact le_refl _
      · have hxpre : x ∉ pre := fun hx => absurd (hinv.2.1 x hx) (not_le.mpr hlt)
        exact ⟨pre, suf, hl, hxpre, fun c hc => lt_of_le_of_lt (hinv.2.1 c hc) hlt⟩
    · rw [if_neg hlt]
      refine ⟨hinv.1, ?_, hinv.2.2⟩
      intro c hc
      rcases List.mem_append.mp hc with hc | hc
      · exact hinv.2.1 c hc
      · rw [List.mem_singleton] at hc; subst hc; exact not_lt.mp hlt

/-- Specification of `mostCommon` on a nonempty list: it returns an element
of maximal count, and everything strictly before that element's first
occurrence has a strictly smaller count — i.e. the first-encountered
element among those sharing the maximal count. -/
theorem mostCommon_spec (l : List String) (hne : l ≠ []) :
    ∃ m, mostCommon l = some m ∧ m ∈ l ∧ (∀ c ∈ l, countL l c ≤ countL l m) ∧
      ∃ l₁ l₂, l = l₁ ++ m :: l₂ ∧ m ∉ l₁ ∧ ∀ c ∈ l₁, countL l c < countL l m := by
  cases l with
  | nil => exact absurd rfl hne
  | cons a t =>
    have h := mc_fold_inv (a :: t) (a :: t) [] a rfl
      ⟨List.mem_cons_self a t, fun c hc => absurd hc (List.not_mem_nil c),
        ⟨[], t, rfl, List.not_mem_nil a, fun c hc => absurd hc (List.not_mem_nil c)⟩⟩
    exact ⟨List.foldl (mcStep (a :: t)) a (a :: t), rfl, h.1, h.2.1, h.2.2⟩

/-- Splitting a list at the first occurrence of an element of its filtering:
a split of `l.filter p` at the first occurrence of `m` lifts to a split of
`l` itself, with the prefix filtering to the filtered prefix. -/
theorem filter_split (p : String → Bool) (m : String) :
    ∀ (l l₁ l₂ : List String), l.filter p = l₁ ++ m :: l₂ → m ∉ l₁ →
    ∃ w₁ w₂, l = w₁ ++ m :: w₂ ∧ w₁.filter p = l₁ := by
  intro l
  induction l with
  | nil =>
    intro l₁ l₂ h _
    rw [List.filter_nil] at h
    exact absurd h.symm (List.append_ne_nil_of_right_ne_nil _ (List.cons_ne_nil _ _))
  | cons x rest ih =>
    intro l₁ l₂ h hm
    by_cases hx : p x
    · rw [List.filter_cons_of_pos hx] at h
      cases l₁ with
      | nil =>
        rw [List.nil_append] at h
        injection h with h1 h2
        subst h1
        exact ⟨[], rest, rfl, rfl⟩
      | cons y l₁' =>
        rw [List.cons_append] at h
        injection h with h1 h2
        subst h1
        have hm' : m ∉ l₁' := fun hmem => hm (List.mem_cons_of_mem _ hmem)
        obtain ⟨w₁, w₂, heq, hw⟩ := ih l₁' l₂ h2 hm'
        refine ⟨x :: w₁, w₂, by rw [heq, List.cons_append], ?_⟩
        rw [List.filter_cons_of_pos hx, hw]
    · rw [List.filter_cons_of_neg hx] at h
      obtain ⟨w₁, w₂, heq, hw⟩ := ih l₁ l₂ h hm
      refine ⟨x :: w₁, w₂, by rw [heq, List.cons_append], ?_⟩
      rw [List.filter_cons_of_neg hx, hw]

/-- A frame's own label belongs to its clipped window. -/
theorem self_mem_window (chords : List String) (ws i : ℕ) (hi : i < chords.length)
    (c : String) (hc : chords.get? i = some c) : c ∈ windowAt chords ws i := by
  unfold windowAt
  have h1 : i - ws / 2 ≤ i := Nat.sub_le _ _
  have h2 : i < min chords.length (i + ws / 2 + 1) := by omega
  apply List.get?_mem (n := i - (i - ws / 2))
  rw [List.get?_take (by omega), List.get?_drop,
    show i - ws / 2 + (i - (i - ws / 2)) = i from by omega]
  exact hc

/-- The smoothed sequence at an in-range index is `smoothAt` there. -/
theorem smooth_get? (chords : List String) (ws i : ℕ) (hi : i < chords.length) :
    (smoothChordProgression chords ws).get? i = some (smoothAt chords ws i) := by
  rw [smoothChordProgression, List.get?_map, List.get?_range hi, Option.map_some']

/-- The smoothed sequence always has the length of its input. -/
theorem smooth_length (chords : List String) (ws : ℕ) :
    (smoothChordProgression chords ws).length = chords.length := by
  simp [smoothChordProgression]

/-- C9: smoothing preserves the length of the label sequence, for every
input and every odd window size at least 1. -/
theorem C9_smooth_preserves_length (chords : List String) (ws : ℕ)
    (_hodd : ws % 2 = 1) (_h1 : 1 ≤ ws) :
    (smoothChordProgression chords ws).length = chords.length :=
  smooth_length chords ws

/-- Witness for C9 on `["C", "N/A", "G"]` with window size 5. -/
theorem C9_smooth_preserves_length_witness :
    (smoothChordProgression ["C", "N/A", "G"] 5).length =
      (["C", "N/A", "G"] : List String).length :=
  C9_smooth_preserves_length ["C", "N/A", "G"] 5 (by decide) (by decide)

/-- C6: at every index whose clipped window holds at least one
non-`'N/A'` label, the emitted label is a most frequent non-`'N/A'` label
of the window, and every non-`'N/A'` label occurring in the window strictly
before the emitted label's first occurrence is strictly less frequent — so
on ties the first-encountered label of the window wins. -/
theorem C6_smooth_most_frequent (chords : List String) (ws i : ℕ)
    (hi : i < chords.length) (hne : filteredWindow chords ws i ≠ []) :
    ∃ m, (smoothChordProgression chords ws).get? i = some m ∧
      m ∈ filteredWindow chords ws i ∧
      (∀ c ∈ filteredWindow chords ws i,
        countL (filteredWindow chords ws i) c ≤ countL (filteredWindow chords ws i) m) ∧
      ∃ w₁ w₂, windowAt chords ws i = w₁ ++ m :: w₂ ∧
        ∀ c ∈ w₁, c ≠ "N/A" →
          countL (filteredWindow chords ws i) c < countL (filteredWindow chords ws i) m := by
  obtain ⟨m, hm, hmem, hmax, l₁, l₂, hsplit, hnotmem, hlt⟩ :=
    mostCommon_spec (filteredWindow chords ws i) hne
  obtain ⟨w₁, w₂, hw, hwf⟩ :=
    filter_split (fun c => decide (c ≠ "N/A")) m (windowAt chords ws i) l₁ l₂ hsplit hnotmem
  refine ⟨m, ?_, hmem, hmax, w₁, w₂, hw, ?_⟩
  · rw [smooth_get? chords ws i hi, smoothAt, hm]
  · intro c hc hcna
    apply hlt
    rw [← hwf]
    exact List.mem_filter.mpr ⟨hc, by simp [hcna]⟩

/-- Witness for C6 on `["G", "C", "C", "G"]`, window size 5, index 1. -/
theorem C6_smooth_most_frequent_witness :
    ∃ m, (smoothChordProgression ["G", "C", "C", "G"] 5).get? 1 = some m ∧
      m ∈ filteredWindow ["G", "C", "C", "G"] 5 1 ∧
      (∀ c ∈ filteredWindow ["G", "C", "C", "G"] 5 1,
        countL (filteredWindow ["G", "C", "C", "G"] 5 1) c ≤
          countL (filteredWindow ["G", "C", "C", "G"] 5 1) m) ∧
      ∃ w₁ w₂, windowAt ["G", "C", "C", "G"] 5 1 = w₁ ++ m :: w₂ ∧
        ∀ c ∈ w₁, c ≠ "N/A" →
          countL (filteredWindow ["G", "C", "C", "G"] 5 1) c <
            countL (filteredWindow ["G", "C", "C", "G"] 5 1) m :=
  C6_smooth_most_frequent ["G", "C", "C", "G"] 5 1 (by decide) (by decide!)

/-- C5 counterexample: the sequence `["C","C",NA,NA,NA,NA,NA,"G","G"]` is
locally unanimous for the odd window size 5, yet smoothing changes it and a
second smoothing pass changes the result again — `smooth` is neither the
identity nor idempotent on it (index 4 smooths to `'N/A'`, then the second
pass turns it into `"C"`). -/
theorem C5_counterexample :
    LocallyUnanimous ["C", "C", "N/A", "N/A", "N/A", "N/A", "N/A", "G", "G"] 5 ∧
    (5 : ℕ) % 2 = 1 ∧ (1 : ℕ) ≤ 5 ∧
    smoothChordProgression
        (smoothChordProgression ["C", "C", "N/A", "N/A", "N/A", "N/A", "N/A", "G", "G"] 5) 5 ≠
      smoothChordProgression ["C", "C", "N/A", "N/A", "N/A", "N/A", "N/A", "G", "G"] 5 ∧
    smoothChordProgression ["C", "C", "N/A", "N/A", "N/A", "N/A", "N/A", "G", "G"] 5 ≠
      ["C", "C", "N/A", "N/A", "N/A", "N/A", "N/A", "G", "G"] := by
  decide!

/-- C5 amended: under the additional hypothesis that every `'N/A'` frame has
an all-`'N/A'` clipped window (which the counterexample shows is needed),
smoothing a locally unanimous sequence is the identity, hence idempotent
on it. -/
theorem C5_smooth_fixed_on_unanimous (chords : List String) (ws : ℕ)
    (_hodd : ws % 2 = 1) (_hws : 1 ≤ ws) (huna : LocallyUnanimous chords ws)
    (hna : ∀ i, i < chords.length → chords.get? i = some "N/A" →
      filteredWindow chords ws i = []) :
    smoothChordProgression chords ws = chords ∧
    smoothChordProgression (smoothChordProgression chords ws) ws =
      smoothChordProgression chords ws := by
  have hfix : smoothChordProgression chords ws = chords := by
    apply List.ext_get?
    intro n
    by_cases hn : n < chords.length
    · rw [smooth_get? chords ws n hn]
      cases hcn : chords.get? n with
      | none => exact absurd (List.get?_eq_none.mp hcn) (by omega)
      | some cn =>
        by_cases hcna : cn = "N/A"
        · subst hcna
          rw [smoothAt, hna n hn hcn]
          rfl
        · have hmemw : cn ∈ windowAt chords ws n := self_mem_window chords ws n hn cn hcn
          have hmemf : cn ∈ filteredWindow chords ws n :=
            List.mem_filter.mpr ⟨hmemw, by simp [hcna]⟩
          obtain ⟨m, hm, hmmem, _, _⟩ :=
            mostCommon_spec (filteredWindow chords ws n) (List.ne_nil_of_mem hmemf)
          rw [smoothAt, hm]
          rw [huna n hn m hmmem cn hmemf]
    · rw [List.get?_eq_none.mpr, List.get?_eq_none.mpr]
      · omega
      · rw [smooth_length chords ws]; omega
  exact ⟨hfix, by rw [hfix]; exact hfix⟩

/-- Witness for the amended C5 on `["C", "C", "C"]` with window size 3. -/
theorem C5_smooth_fixed_on_unanimous_witness :
    smoothChordProgression ["C", "C", "C"] 3 = ["C", "C", "C"] ∧
    smoothChordProgression (smoothChordProgression ["C", "C", "C"] 3) 3 =
      smoothChordProgression ["C", "C", "C"] 3 :=
  C5_smooth_fixed_on_unanimous ["C", "C", "C"] 3 (by decide) (by decide)
    (by decide!) (by decide!)

/-- C4: round trip — every frame index holding a non-`'N/A'` label lies in
exactly one returned segment (its time falls in `[start_time, end_time)`),
and that segment carries the frame's label. -/
theorem C4_roundtrip (chords : List String) (fd : ℚ) (hfd : 0 < fd) (j : ℕ) (cj : String)
    (hj : chords.get? j = some cj) (hcj : cj ≠ "N/A") :
    ∃! s : ChordSegment, s ∈ getChordProgression chords fd ∧
      s.start_time ≤ (j : ℚ) * fd ∧ (j : ℚ) * fd < s.end_time ∧ s.chord = cj := by
  obtain ⟨p, hp, h1, h2, h3⟩ :=
    cutsAux_cover chords 0 none (fun c j' h => by cases h) j cj hj hcj
  rw [Nat.zero_add] at h1 h2
  refine ⟨segOf fd p, ⟨?_, ?_, ?_, h3⟩, ?_⟩
  · rw [getChordProgression_eq_cuts]
    exact List.mem_map_of_mem _ hp
  · show (p.2.1 : ℚ) * fd ≤ (j : ℚ) * fd
    exact mul_le_mul_of_nonneg_right (by exact_mod_cast h1) (le_of_lt hfd)
  · show (j : ℚ) * fd < (p.2.2 : ℚ) * fd
    exact mul_lt_mul_of_pos_right (by exact_mod_cast h2) hfd
  · rintro s' ⟨hs', hle, hlt, hchord⟩
    rw [getChordProgression_eq_cuts] at hs'
    obtain ⟨q, hq, rfl⟩ := List.mem_map.mp hs'
    have hq1 : q.2.1 ≤ j := by
      have h' : (q.2.1 : ℚ) ≤ (j : ℚ) := le_of_mul_le_mul_right hle hfd
      exact_mod_cast h'
    have hq2 : j < q.2.2 := by
      have h' : (j : ℚ) < (q.2.2 : ℚ) := lt_of_mul_lt_mul_right hlt (le_of_lt hfd)
      exact_mod_cast h'
    rcases pairwise_elim _ (cutsAux_pairwise chords 0) hq hp with heq | hrel | hrel
    · rw [heq]
    · obtain ⟨_, _, hd⟩ := hrel
      omega
    · obtain ⟨_, _, hd⟩ := hrel
      omega

/-- Witness for C4 on `["C", "N/A", "G"]`, frame 0, `fd = 1/2`. -/
theorem C4_roundtrip_witness :
    ∃! s : ChordSegment, s ∈ getChordProgression ["C", "N/A", "G"] (1 / 2) ∧
      s.start_time ≤ ((0 : ℕ) : ℚ) * (1 / 2) ∧ ((0 : ℕ) : ℚ) * (1 / 2) < s.end_time ∧
      s.chord = "C" :=
  C4_roundtrip ["C", "N/A", "G"] (1 / 2) (by decide!) 0 "C" (by decide!) (by decide!)

end ChordDetector
